import Mathlib

/-!
Verification of the uksmd daemon core (page-state tracker, content-grouped
merge index, work scheduler) against its natural-language specification.

The Rust source is embedded shallowly:
* `HashMap<u64, V>` is modelled as an association list `List (Nat × V)` whose
  insert keeps keys unique (a hash map is unordered, so the list order is a
  modelling choice; every claim below depends only on lookups, key sets, or
  is stated relative to this fixed traversal order).
* Kernel I/O (`merge_pages`, `unmerge_pages`, the pseudo-file writes) is
  modelled by explicit oracle parameters describing the outcome of each call.
* Fallible Rust functions returning `anyhow::Result` become `Except Unit`.
-/

/-- Association-list erase: removes every binding of key `k`
(`HashMap::remove`; keys are unique so at most one binding exists). -/
def alErase {α : Type} (k : Nat) (l : List (Nat × α)) : List (Nat × α) :=
  l.filter (fun p => p.1 != k)

/-- Association-list insert (`HashMap::insert` / in-place mutation through
`get_mut`): binds `k` to `v`, dropping any previous binding. -/
def alInsert {α : Type} (k : Nat) (v : α) (l : List (Nat × α)) : List (Nat × α) :=
  (k, v) :: alErase k l

/-- Association-list lookup (`HashMap::get`). -/
def alLookup {α : Type} (k : Nat) (l : List (Nat × α)) : Option α :=
  (l.find? (fun p => p.1 == k)).map (·.2)

/-- The key set of an association list. -/
def alKeys {α : Type} (l : List (Nat × α)) : List Nat :=
  l.map (·.1)

/-- src/page.rs `PageEntry`: the tracker's memory of a page's last-seen crc. -/
structure PageEntry where
  crc : Nat
deriving DecidableEq, Repr

/-- src/uksm.rs `UKSMPagemapEntry`: one decoded kernel pagemap record. -/
structure UKSMPagemapEntry where
  pfn : Nat
  crc : Nat
  is_thp : Bool
  is_ksm : Bool
deriving DecidableEq, Repr

/-- src/uksm.rs `PidAddr`. -/
structure PidAddr where
  pid : Nat
  addr : Nat
deriving DecidableEq, Repr

/-- Outcome oracle for `merge_pages` (compare-and-merge through the kernel):
`.ok true` = merged, `.ok false` = pages not identical, `.error` = I/O error. -/
def GwM : Type := PidAddr → PidAddr → Except Unit Bool

/-- Outcome oracle for `unmerge_pages`. -/
def UgwM : Type := PidAddr → Except Unit Unit

/-- src/uksm.rs `Uksm`: the content-grouped merge index,
crc → ordered list of equivalence classes of `PidAddr`. -/
structure Uksm where
  pages : List (Nat × List (List PidAddr))
deriving DecidableEq, Repr

/-- src/uksm.rs `Uksm::new`. -/
def Uksm.new : Uksm := ⟨[]⟩

/-- The inner member scan of `Uksm::add` (the `'pages` loop): probe each
member of one class with `merge_pages(member, new_page)` until one reports
merged; `.ok true` iff some member merged. -/
def tryClass (gw : GwM) (n : PidAddr) : List PidAddr → Except Unit Bool
  | [] => .ok false
  | m :: rest =>
    match gw m n with
    | .error e => .error e
    | .ok true => .ok true
    | .ok false => tryClass gw n rest

/-- The outer class scan of `Uksm::add` (the `'pagesvec` loop together with
the trailing `if !merged { pagesvec.push(vec![new_page]) }`): append `n` to
the first class some member of which merged, otherwise append `[n]` as a new
class at the end. -/
def addToVec (gw : GwM) (n : PidAddr) : List (List PidAddr) → Except Unit (List (List PidAddr))
  | [] => .ok [[n]]
  | k :: rest =>
    match tryClass gw n k with
    | .error e => .error e
    | .ok true => .ok ((k ++ [n]) :: rest)
    | .ok false =>
      match addToVec gw n rest with
      | .error e => .error e
      | .ok rest' => .ok (k :: rest')

/-- src/uksm.rs `Uksm::add`. -/
def Uksm.add (u : Uksm) (pid addr : Nat) (entry : PageEntry) (gw : GwM) : Except Unit Uksm :=
  let n : PidAddr := ⟨pid, addr⟩
  match alLookup entry.crc u.pages with
  | some vec =>
    match addToVec gw n vec with
    | .error e => .error e
    | .ok vec' => .ok ⟨alInsert entry.crc vec' u.pages⟩
  | none => .ok ⟨alInsert entry.crc [[n]] u.pages⟩

/-- The class scan of `Uksm::remove`: retain members other than
`(pid, addr)` in each class, stopping at the first class that shrank.
Returns (new classes, whether a member was removed, whether the shrunk
class became empty). -/
def removeScan (pid addr : Nat) : List (List PidAddr) → List (List PidAddr) × Bool × Bool
  | [] => ([], false, false)
  | k :: rest =>
    let k' := k.filter (fun pa => pa.pid != pid || pa.addr != addr)
    if k'.length ≠ k.length then (k' :: rest, true, k'.isEmpty)
    else
      let r := removeScan pid addr rest
      (k :: r.1, r.2.1, r.2.2)

/-- src/uksm.rs `Uksm::remove`: erase `(pid, addr)` from the class list of
`crc`, drop the class if it became empty, drop the crc if no class remains. -/
def Uksm.remove (u : Uksm) (pid addr crc : Nat) : Uksm :=
  match alLookup crc u.pages with
  | none => u
  | some vec =>
    let r := removeScan pid addr vec
    if r.2.2 then
      let vec₂ := r.1.filter (fun k => !k.isEmpty)
      if vec₂.isEmpty then ⟨alErase crc u.pages⟩
      else ⟨alInsert crc vec₂ u.pages⟩
    else ⟨alInsert crc r.1 u.pages⟩

/-- src/uksm.rs `Uksm::unmerge`: call the gateway's unmerge first; only on
success remove the pair from the index. -/
def Uksm.unmerge (u : Uksm) (pid addr : Nat) (entry : PageEntry) (ugw : UgwM) : Except Unit Uksm :=
  match ugw ⟨pid, addr⟩ with
  | .error e => .error e
  | .ok _ => .ok (u.remove pid addr entry.crc)

/-- Outcomes of the four kernel pseudo-file operations performed by
src/uksm.rs `merge_pages`: the two opens (success flag) and the two writes
(`none` = success, `some errno` = failure with that raw OS error, itself
optional because an I/O error may carry no errno). -/
structure MergeFiles where
  open_cmp : Bool
  write_cmp : Option (Option Int)
  open_merge : Bool
  write_merge : Option (Option Int)
deriving DecidableEq, Repr

/-- src/uksm.rs `merge_pages` over a `MergeFiles` outcome record:
write the command to `cmp`, then to `merge`; a write failure with raw OS
error 541 (`EPAGESNOTSAME`) yields `.ok false` (not identical), any other
failure is an error; `.ok true` (merged) iff both writes succeed. -/
def merge_pages (io : MergeFiles) : Except Unit Bool :=
  if io.open_cmp = false then .error () else
  match io.write_cmp with
  | some errno => if errno = some 541 then .ok false else .error ()
  | none =>
    if io.open_merge = false then .error () else
    match io.write_merge with
    | some errno => if errno = some 541 then .ok false else .error ()
    | none => .ok true

/-- src/proc.rs `MapRange`: a half-open virtual-address interval.
The source's second field is named `end`, a Lean keyword, hence `stop`. -/
structure MapRange where
  start : Nat
  stop : Nat
deriving DecidableEq, Repr

/-- src/page.rs `Info`: the per-process page tracker. -/
structure Info where
  pid : Nat
  maps : List MapRange
  new_pages : List (Nat × PageEntry)
  old_pages : List (Nat × PageEntry)
  uksm_pages : List (Nat × PageEntry)
deriving DecidableEq, Repr

/-- src/page.rs `Info::new`. -/
def Info.new (pid : Nat) : Info := ⟨pid, [], [], [], []⟩

/-- src/page.rs `Info::remove`: erase `addr` from the first bucket holding
it (new, then old, then merged); when it was merged, also remove the pair
from the merge index. -/
def Info.remove (s : Info) (u : Uksm) (addr : Nat) : Info × Uksm :=
  if (alLookup addr s.new_pages).isSome then
    ({ s with new_pages := alErase addr s.new_pages }, u)
  else if (alLookup addr s.old_pages).isSome then
    ({ s with old_pages := alErase addr s.old_pages }, u)
  else
    match alLookup addr s.uksm_pages with
    | some e => ({ s with uksm_pages := alErase addr s.uksm_pages }, u.remove s.pid addr e.crc)
    | none => (s, u)

/-- src/page.rs `Info::update`: the three-bucket transition for one
observation `entry` at address `addr`. -/
def Info.update (s : Info) (u : Uksm) (addr : Nat) (entry : UKSMPagemapEntry) : Info × Uksm :=
  match alLookup addr s.new_pages with
  | some e =>
    if e.crc ≠ entry.crc then
      ({ s with new_pages := alInsert addr ⟨entry.crc⟩ s.new_pages }, u)
    else
      ({ s with new_pages := alErase addr s.new_pages,
                old_pages := alInsert addr e s.old_pages }, u)
  | none =>
    match alLookup addr s.old_pages with
    | some e =>
      if e.crc ≠ entry.crc then
        ({ s with old_pages := alErase addr s.old_pages,
                  new_pages := alInsert addr ⟨entry.crc⟩ s.new_pages }, u)
      else (s, u)
    | none =>
      match alLookup addr s.uksm_pages with
      | some e =>
        if entry.is_ksm = false ∨ e.crc ≠ entry.crc then
          ({ s with uksm_pages := alErase addr s.uksm_pages,
                    new_pages := alInsert addr ⟨entry.crc⟩ s.new_pages },
           u.remove s.pid addr e.crc)
        else (s, u)
      | none => ({ s with new_pages := alInsert addr ⟨entry.crc⟩ s.new_pages }, u)

/-- The loop body sequence of src/page.rs `Info::merge` over the collected
list of old-bucket addresses: for each address still in old, `uksm.add` it
(an error stops the pass, leaving the partially advanced state), then move
it from old to merged. The final `Bool` is true iff no error occurred. -/
def mergeLoop (gw : GwM) : Info → Uksm → List Nat → Info × Uksm × Bool
  | s, u, [] => (s, u, true)
  | s, u, addr :: rest =>
    match alLookup addr s.old_pages with
    | some entry =>
      match u.add s.pid addr entry gw with
      | .error _ => (s, u, false)
      | .ok u' =>
        mergeLoop gw
          { s with old_pages := alErase addr s.old_pages,
                   uksm_pages := alInsert addr entry s.uksm_pages } u' rest
    | none => mergeLoop gw s u rest

/-- src/page.rs `Info::merge`. -/
def Info.merge (s : Info) (u : Uksm) (gw : GwM) : Info × Uksm × Bool :=
  mergeLoop gw s u (alKeys s.old_pages)

/-- The loop body sequence of src/page.rs `Info::unmerge` over the collected
list of merged-bucket addresses: for each address still in merged,
`uksm.unmerge` it (an error stops the pass), then move it back to old. -/
def unmergeLoop (ugw : UgwM) : Info → Uksm → List Nat → Info × Uksm × Bool
  | s, u, [] => (s, u, true)
  | s, u, addr :: rest =>
    match alLookup addr s.uksm_pages with
    | some entry =>
      match u.unmerge s.pid addr entry ugw with
      | .error _ => (s, u, false)
      | .ok u' =>
        unmergeLoop ugw
          { s with uksm_pages := alErase addr s.uksm_pages,
                   old_pages := alInsert addr entry s.old_pages } u' rest
    | none => unmergeLoop ugw s u rest

/-- src/page.rs `Info::unmerge`. -/
def Info.unmerge (s : Info) (u : Uksm) (ugw : UgwM) : Info × Uksm × Bool :=
  unmergeLoop ugw s u (alKeys s.uksm_pages)

/-- src/page.rs `find_non_overlapping_ranges`: the overlap filter predicate
`range_b.start < range_a.end && range_b.end > range_a.start`. -/
def overlapsA (ra rb : MapRange) : Bool :=
  rb.start < ra.stop && rb.stop > ra.start

/-- Stable insertion of a range into a list sorted by `start`
(one step of Rust's stable `sort_by_key`). -/
def insertByStart (b : MapRange) : List MapRange → List MapRange
  | [] => [b]
  | x :: xs => if b.start ≤ x.start then b :: x :: xs else x :: insertByStart b xs

/-- Stable sort by `start` (Rust `sort_by_key(|k| k.start)`). -/
def sortByStart : List MapRange → List MapRange
  | [] => []
  | x :: xs => insertByStart x (sortByStart xs)

/-- The sweep loop of `find_non_overlapping_ranges` over one range of `a`:
walk the sorted overlapping ranges with a moving `current_start`, emitting
each non-empty gap, then the final remainder up to `aEnd`. -/
def subSweep (cur aEnd : Nat) : List MapRange → List MapRange
  | [] => if cur < aEnd then [⟨cur, aEnd⟩] else []
  | b :: rest =>
    (if cur < b.start then [⟨cur, b.start⟩] else []) ++
      subSweep (if cur < b.stop then b.stop else cur) aEnd rest

/-- The per-`range_a` body of `find_non_overlapping_ranges`: filter `b` to
the ranges overlapping `ra`, sort them by start, sweep. -/
def subA (ra : MapRange) (b : List MapRange) : List MapRange :=
  subSweep ra.start ra.stop (sortByStart (b.filter (fun rb => overlapsA ra rb)))

/-- src/page.rs `find_non_overlapping_ranges`. -/
def find_non_overlapping_ranges (a b : List MapRange) : List MapRange :=
  a.foldl (fun c ra => c ++ subA ra b) []

/-- Ordered concatenation of per-element outputs (used to state that the
result lists the remainders of each `range_a` in input order). -/
def concatMap {α β : Type} (f : α → List β) : List α → List β
  | [] => []
  | x :: xs => f x ++ concatMap f xs

/-- src/task.rs `TaskInfo`. -/
structure TaskInfo where
  pid : Nat
  addr : Option (Nat × Nat)
deriving DecidableEq, Repr

/-- src/task.rs `Tasks`: the control-plane state touched by the control
operations — the registered-task map and the four work queues.
(`tasks_pages`, the tracker set owned by the worker, is modelled
separately by `Info`/`Uksm` above.) -/
structure TasksSt where
  map : List (Nat × TaskInfo)
  refresh_target : List TaskInfo
  merge_target : List Nat
  unmerge_target : List Nat
  del_target : List Nat
deriving DecidableEq, Repr

/-- src/task.rs `Tasks::new`. -/
def Tasks.new : TasksSt := ⟨[], [], [], [], []⟩

/-- src/task.rs `Tasks::add`. `P` is the page size; `avail` is the outcome
of the `proc::pid_is_available` check (an external /proc probe). -/
def Tasks.add (P : Nat) (s : TasksSt) (pid : Nat) (addr : Option (Nat × Nat))
    (avail : Bool) : Except Unit TasksSt :=
  if avail = false then .error ()
  else if (match addr with
           | some (st, en) => st % P != 0 || en % P != 0
           | none => false) then .error ()
  else if (alLookup pid s.map).isSome then .error ()
  else .ok { s with map := alInsert pid ⟨pid, addr⟩ s.map,
                    refresh_target := s.refresh_target ++ [⟨pid, addr⟩] }

/-- src/task.rs `Tasks::del`: remove the pid from the map; purge pending
refresh, merge and unmerge entries for it; push it onto the unmerge and del
queues. -/
def Tasks.del (s : TasksSt) (pid : Nat) : Except Unit TasksSt :=
  if (alLookup pid s.map).isSome then
    .ok { map := alErase pid s.map,
          refresh_target := s.refresh_target.filter (fun t => t.pid != pid),
          merge_target := s.merge_target.filter (fun p => p != pid),
          unmerge_target := s.unmerge_target.filter (fun p => p != pid) ++ [pid],
          del_target := s.del_target ++ [pid] }
  else .error ()

/-- src/task.rs `AsyncWork`: the queue class a worker is bound to. -/
inductive AsyncWork
  | UnMerge
  | Del
  | Refresh
  | Merge
deriving DecidableEq, Repr

/-- The queue-class choice of src/task.rs `Tasks::async_work`: strict
priority unmerge > del > refresh > merge; `none` (return false, no worker
launched) iff all four queues are empty. -/
def async_work (s : TasksSt) : Option AsyncWork :=
  if s.unmerge_target.length > 0 then some .UnMerge
  else if s.del_target.length > 0 then some .Del
  else if s.refresh_target.length > 0 then some .Refresh
  else if s.merge_target.length > 0 then some .Merge
  else none

/-- Rust `Vec::pop`: removes and returns the last element. -/
def vecPop {α : Type} : List α → Option (α × List α)
  | [] => none
  | x :: xs =>
    match vecPop xs with
    | none => some (x, [])
    | some (y, rest) => some (y, x :: rest)

theorem vecPop_some_length {α : Type} :
    ∀ {q rest : List α} {x : α}, vecPop q = some (x, rest) → rest.length < q.length := by
  intro q
  induction q with
  | nil => intro rest x h; simp [vecPop] at h
  | cons a as ih =>
    intro rest x h
    simp only [vecPop] at h
    cases hv : vecPop as with
    | none =>
      rw [hv] at h
      cases h
      simp
    | some p =>
      rw [hv] at h
      cases p with
      | mk y r =>
        cases h
        have := ih hv
        simpa using Nat.succ_lt_succ this

/-- The pop loop of src/task.rs `Tasks::async_work_thread`: repeatedly pop
the bound queue until it is empty, returning the items in processing
order. -/
def drainOrder {α : Type} (q : List α) : List α :=
  match h : vecPop q with
  | none => []
  | some (x, rest) => x :: drainOrder rest
termination_by q.length
decreasing_by exact vecPop_some_length h

/-! ## Basic association-list lemmas -/

theorem mem_alKeys_alErase {α : Type} {a k : Nat} {l : List (Nat × α)} :
    a ∈ alKeys (alErase k l) ↔ a ∈ alKeys l ∧ a ≠ k := by
  simp only [alKeys, alErase, List.mem_map, List.mem_filter, bne_iff_ne, ne_eq]
  constructor
  · rintro ⟨x, ⟨hx, hne⟩, rfl⟩
    exact ⟨⟨x, hx, rfl⟩, hne⟩
  · rintro ⟨⟨x, hx, rfl⟩, hne⟩
    exact ⟨x, ⟨hx, hne⟩, rfl⟩

theorem mem_alKeys_alInsert {α : Type} {a k : Nat} {v : α} {l : List (Nat × α)} :
    a ∈ alKeys (alInsert k v l) ↔ a = k ∨ (a ∈ alKeys l ∧ a ≠ k) := by
  simp only [alInsert, alKeys, List.map_cons, List.mem_cons]
  constructor
  · rintro (rfl | h)
    · exact Or.inl rfl
    · exact Or.inr (mem_alKeys_alErase.mp h)
  · rintro (rfl | h)
    · exact Or.inl rfl
    · exact Or.inr (mem_alKeys_alErase.mpr h)

theorem alLookup_eq_none_iff {α : Type} {k : Nat} {l : List (Nat × α)} :
    alLookup k l = none ↔ k ∉ alKeys l := by
  simp only [alLookup, Option.map_eq_none', List.find?_eq_none, beq_iff_eq, alKeys,
    List.mem_map]
  constructor
  · rintro h ⟨x, hx, rfl⟩
    exact h x hx rfl
  · rintro h x hx rfl
    exact h ⟨x, hx, rfl⟩

theorem alLookup_isSome_mem {α : Type} {k : Nat} {l : List (Nat × α)} {v : α}
    (h : alLookup k l = some v) : k ∈ alKeys l := by
  by_contra hk
  rw [alLookup_eq_none_iff.mpr hk] at h
  cases h

theorem alLookup_alInsert_self {α : Type} (k : Nat) (v : α) (l : List (Nat × α)) :
    alLookup k (alInsert k v l) = some v := by
  simp [alLookup, alInsert, List.find?]

theorem alLookup_alErase_self {α : Type} (k : Nat) (l : List (Nat × α)) :
    alLookup k (alErase k l) = none := by
  rw [alLookup_eq_none_iff]
  intro h
  exact (mem_alKeys_alErase.mp h).2 rfl

theorem alErase_of_not_mem {α : Type} {k : Nat} {l : List (Nat × α)}
    (h : k ∉ alKeys l) : alErase k l = l := by
  apply List.filter_eq_self.mpr
  intro p hp
  simp only [bne_iff_ne, ne_eq, decide_eq_true_eq]
  rintro rfl
  exact h (List.mem_map.mpr ⟨p, hp, rfl⟩)

/-! ## Concrete gateway oracles used by witnesses and counterexamples -/

/-- A gateway on which every compare-and-merge reports merged. -/
def gwTrue : GwM := fun _ _ => .ok true

/-- A gateway on which every compare-and-merge reports not-identical. -/
def gwFalse : GwM := fun _ _ => .ok false

/-- A gateway whose unmerge always succeeds. -/
def ugwOk : UgwM := fun _ => .ok ()

/-- A gateway whose unmerge always fails. -/
def ugwErr : UgwM := fun _ => .error ()

/-! ## C4: worker class choice -/

/-- C4: whenever the scheduler decides to launch a worker, the queue class is
chosen by strict priority unmerge > del > refresh > merge (each class is
chosen iff its queue is non-empty and every higher-priority queue is empty),
and no worker is launched (no class returned) iff all four queues are
empty. -/
theorem c4_async_work_priority (s : TasksSt) :
    (async_work s = some AsyncWork.UnMerge ↔ s.unmerge_target ≠ []) ∧
    (async_work s = some AsyncWork.Del ↔
      s.unmerge_target = [] ∧ s.del_target ≠ []) ∧
    (async_work s = some AsyncWork.Refresh ↔
      s.unmerge_target = [] ∧ s.del_target = [] ∧ s.refresh_target ≠ []) ∧
    (async_work s = some AsyncWork.Merge ↔
      s.unmerge_target = [] ∧ s.del_target = [] ∧ s.refresh_target = [] ∧
      s.merge_target ≠ []) ∧
    (async_work s = none ↔
      s.unmerge_target = [] ∧ s.del_target = [] ∧ s.refresh_target = [] ∧
      s.merge_target = []) := by
  cases hu : s.unmerge_target <;> cases hd : s.del_target <;>
    cases hr : s.refresh_target <;> cases hm : s.merge_target <;>
    simp [async_work, hu, hd, hr, hm]

/-! ## C7: unmerge error handling -/

/-- C7: on a call of the merge index's unmerge, a gateway failure leaves the
index unchanged (no updated index is produced, the error is surfaced), and
only after the gateway call succeeds is the pair removed from the index. -/
theorem c7_unmerge_gateway_first (u : Uksm) (pid addr : Nat) (entry : PageEntry)
    (ugw : UgwM) :
    (ugw ⟨pid, addr⟩ = .error () → Uksm.unmerge u pid addr entry ugw = .error ()) ∧
    (ugw ⟨pid, addr⟩ = .ok () → Uksm.unmerge u pid addr entry ugw =
      .ok (u.remove pid addr entry.crc)) := by
  constructor <;> intro h <;> simp [Uksm.unmerge, h]

/-- Concrete instance of C7 at both a failing and a succeeding gateway. -/
theorem c7_unmerge_gateway_first_witness :
    Uksm.unmerge ⟨[(5, [[⟨1, 2⟩]])]⟩ 1 2 ⟨5⟩ ugwErr = .error () ∧
    Uksm.unmerge ⟨[(5, [[⟨1, 2⟩]])]⟩ 1 2 ⟨5⟩ ugwOk =
      .ok (Uksm.remove ⟨[(5, [[⟨1, 2⟩]])]⟩ 1 2 5) :=
  ⟨(c7_unmerge_gateway_first ⟨[(5, [[⟨1, 2⟩]])]⟩ 1 2 ⟨5⟩ ugwErr).1 rfl,
   (c7_unmerge_gateway_first ⟨[(5, [[⟨1, 2⟩]])]⟩ 1 2 ⟨5⟩ ugwOk).2 rfl⟩

/-! ## C8: compare-and-merge error mapping -/

/-- C8: compare-and-merge returns not-identical exactly when one of the two
kernel writes fails with raw OS error 541; it returns merged iff both opens
and both writes succeed; and a write failure whose raw OS error is not 541
(or absent) is surfaced as an error, not as not-identical. -/
theorem c8_merge_pages_mapping (io : MergeFiles) :
    (merge_pages io = .ok false ↔
      (io.open_cmp = true ∧ io.write_cmp = some (some 541)) ∨
      (io.open_cmp = true ∧ io.write_cmp = none ∧ io.open_merge = true ∧
        io.write_merge = some (some 541))) ∧
    (merge_pages io = .ok true ↔
      io.open_cmp = true ∧ io.write_cmp = none ∧ io.open_merge = true ∧
      io.write_merge = none) ∧
    (∀ e, io.open_cmp = true → io.write_cmp = some e → e ≠ some 541 →
      merge_pages io = .error ()) ∧
    (∀ e, io.open_cmp = true → io.write_cmp = none → io.open_merge = true →
      io.write_merge = some e → e ≠ some 541 → merge_pages io = .error ()) := by
  obtain ⟨oc, wc, om, wm⟩ := io
  cases oc <;> rcases wc with _ | e₁ <;> cases om <;> rcases wm with _ | e₂ <;>
    simp [merge_pages] <;>
    (try (rcases eq_or_ne e₁ (some 541) with h1 | h1 <;> simp [h1])) <;>
    (try (rcases eq_or_ne e₂ (some 541) with h2 | h2 <;> simp [h2]))

/-- Concrete instance of C8: a cmp write failing with errno 17 is an error,
not not-identical. -/
theorem c8_merge_pages_mapping_witness :
    merge_pages ⟨true, some (some 17), true, none⟩ = .error () :=
  (c8_merge_pages_mapping ⟨true, some (some 17), true, none⟩).2.2.1 (some 17) rfl rfl
    (by decide)

/-! ## C10: worker pops from the queue tail -/

theorem vecPop_concat {α : Type} (xs : List α) (x : α) :
    vecPop (xs ++ [x]) = some (x, xs) := by
  induction xs with
  | nil => rfl
  | cons a as ih => simp [vecPop, ih]

theorem drainOrder_nil {α : Type} : drainOrder ([] : List α) = [] := by
  rw [drainOrder]
  split
  · rfl
  · rename_i x rest h
    simp [vecPop] at h

theorem drainOrder_concat {α : Type} (xs : List α) (x : α) :
    drainOrder (xs ++ [x]) = x :: drainOrder xs := by
  rw [drainOrder]
  split
  · rename_i h
    rw [vecPop_concat] at h
    cases h
  · rename_i y rest h
    rw [vecPop_concat] at h
    cases h
    rfl

/-- C10: within one worker run the bound queue is drained by popping from
the tail, so items are processed in last-in-first-out order (the reverse of
enqueue order), and popping continues until the queue is empty. -/
theorem c10_worker_pops_tail :
    (∀ (xs : List Nat) (x : Nat), vecPop (xs ++ [x]) = some (x, xs)) ∧
    vecPop ([] : List Nat) = none ∧
    (∀ q : List Nat, drainOrder q = q.reverse) := by
  refine ⟨vecPop_concat, rfl, ?_⟩
  intro q
  induction q using List.reverseRecOn with
  | nil => exact drainOrder_nil
  | append_singleton xs x ih =>
    rw [drainOrder_concat, ih, List.reverse_append]
    rfl

/-! ## C2: merge-index add scans classes in order -/

theorem tryClass_of_member_merges (gw : GwM) (n : PidAddr) :
    ∀ (mpre : List PidAddr) (m : PidAddr) (mpost : List PidAddr),
      (∀ m' ∈ mpre, gw m' n = .ok false) → gw m n = .ok true →
      tryClass gw n (mpre ++ m :: mpost) = .ok true := by
  intro mpre
  induction mpre with
  | nil =>
    intro m mpost _ hm
    simp [tryClass, hm]
  | cons a as ih =>
    intro m mpost hpre hm
    have ha : gw a n = .ok false := hpre a (by simp)
    simp only [List.cons_append, tryClass, ha]
    exact ih m mpost (fun m' hm' => hpre m' (by simp [hm'])) hm

theorem addToVec_first_accepting (gw : GwM) (n : PidAddr) :
    ∀ (pre : List (List PidAddr)) (k : List PidAddr) (post : List (List PidAddr)),
      (∀ k' ∈ pre, tryClass gw n k' = .ok false) → tryClass gw n k = .ok true →
      addToVec gw n (pre ++ k :: post) = .ok (pre ++ (k ++ [n]) :: post) := by
  intro pre
  induction pre with
  | nil =>
    intro k post _ hk
    simp [addToVec, hk]
  | cons a as ih =>
    intro k post hpre hk
    have ha : tryClass gw n a = .ok false := hpre a (by simp)
    rw [List.cons_append]
    simp only [addToVec, ha, List.append_eq]
    rw [ih k post (fun k' hk' => hpre k' (by simp [hk'])) hk]
    rfl

theorem addToVec_all_reject (gw : GwM) (n : PidAddr) :
    ∀ (vec : List (List PidAddr)),
      (∀ k ∈ vec, tryClass gw n k = .ok false) →
      addToVec gw n vec = .ok (vec ++ [[n]]) := by
  intro vec
  induction vec with
  | nil => intro _; rfl
  | cons a as ih =>
    intro hall
    have ha : tryClass gw n a = .ok false := hall a (by simp)
    simp only [addToVec, ha, List.append_eq]
    rw [ih (fun k hk => hall k (by simp [hk]))]
    rfl

/-- C2: on add(pid, addr, entry), if no class list exists for entry.crc a
singleton class is created with the same result for every gateway (so the
gateway is never consulted); otherwise the classes are scanned in order,
the pair is appended to the first class in which some member reported
merged, later classes are left untouched, and if every class rejects the
pair it is appended as a new singleton class at the end; within a class the
members are probed in order until one reports merged. -/
theorem c2_add_class_scan (u : Uksm) (pid addr : Nat) (entry : PageEntry) (gw : GwM) :
    (alLookup entry.crc u.pages = none →
      Uksm.add u pid addr entry gw =
        .ok ⟨alInsert entry.crc [[⟨pid, addr⟩]] u.pages⟩) ∧
    (∀ pre k post, alLookup entry.crc u.pages = some (pre ++ k :: post) →
      (∀ k' ∈ pre, tryClass gw ⟨pid, addr⟩ k' = .ok false) →
      tryClass gw ⟨pid, addr⟩ k = .ok true →
      Uksm.add u pid addr entry gw =
        .ok ⟨alInsert entry.crc (pre ++ (k ++ [⟨pid, addr⟩]) :: post) u.pages⟩) ∧
    (∀ vec, alLookup entry.crc u.pages = some vec →
      (∀ k ∈ vec, tryClass gw ⟨pid, addr⟩ k = .ok false) →
      Uksm.add u pid addr entry gw =
        .ok ⟨alInsert entry.crc (vec ++ [[⟨pid, addr⟩]]) u.pages⟩) ∧
    (∀ (mpre : List PidAddr) m mpost, (∀ m' ∈ mpre, gw m' ⟨pid, addr⟩ = .ok false) →
      gw m ⟨pid, addr⟩ = .ok true →
      tryClass gw ⟨pid, addr⟩ (mpre ++ m :: mpost) = .ok true) := by
  refine ⟨?_, ?_, ?_, ?_⟩
  · intro h
    simp [Uksm.add, h]
  · intro pre k post h hpre hk
    simp [Uksm.add, h, addToVec_first_accepting gw ⟨pid, addr⟩ pre k post hpre hk]
  · intro vec h hall
    simp [Uksm.add, h, addToVec_all_reject gw ⟨pid, addr⟩ vec hall]
  · exact tryClass_of_member_merges gw ⟨pid, addr⟩

/-- Concrete instances of C2: a fresh crc creates a singleton class even on
an always-failing gateway; with one existing class whose member merges, the
pair joins that class. -/
theorem c2_add_class_scan_witness :
    Uksm.add ⟨[]⟩ 1 2 ⟨5⟩ (fun _ _ => .error ()) = .ok ⟨[(5, [[⟨1, 2⟩]])]⟩ ∧
    Uksm.add ⟨[(5, [[⟨3, 4⟩]])]⟩ 1 2 ⟨5⟩ gwTrue =
      .ok ⟨[(5, [[⟨3, 4⟩, ⟨1, 2⟩]])]⟩ :=
  ⟨(c2_add_class_scan ⟨[]⟩ 1 2 ⟨5⟩ (fun _ _ => .error ())).1 rfl,
   (c2_add_class_scan ⟨[(5, [[⟨3, 4⟩]])]⟩ 1 2 ⟨5⟩ gwTrue).2.1 [] [⟨3, 4⟩] []
     rfl (by simp) rfl⟩

/-! ## C1: the per-address transition table -/

/-- C1: the tracker's per-address transition matches the specified table.
With an entry present carrying crc c': an address absent from all three
buckets enters new(c'); new(c) goes to old(c) when c' = c and stays new
with crc c' when c' ≠ c; old(c) stays old when c' = c and goes to new(c')
when c' ≠ c; merged(c) stays merged only when c' = c and is_ksm holds, and
otherwise goes to new(c') removing (pid, a, c) from the merge index. With
the entry absent, the address is removed from whichever bucket holds it,
removing (pid, a, c) from the merge index when it was merged. -/
theorem c1_transition_table (s : Info) (u : Uksm) (addr : Nat) (entry : UKSMPagemapEntry) :
    (alLookup addr s.new_pages = none → alLookup addr s.old_pages = none →
      alLookup addr s.uksm_pages = none →
      Info.update s u addr entry =
        ({ s with new_pages := alInsert addr ⟨entry.crc⟩ s.new_pages }, u)) ∧
    (∀ e, alLookup addr s.new_pages = some e → e.crc = entry.crc →
      Info.update s u addr entry =
        ({ s with new_pages := alErase addr s.new_pages,
                  old_pages := alInsert addr e s.old_pages }, u)) ∧
    (∀ e, alLookup addr s.new_pages = some e → e.crc ≠ entry.crc →
      Info.update s u addr entry =
        ({ s with new_pages := alInsert addr ⟨entry.crc⟩ s.new_pages }, u)) ∧
    (∀ e, alLookup addr s.new_pages = none → alLookup addr s.old_pages = some e →
      e.crc = entry.crc → Info.update s u addr entry = (s, u)) ∧
    (∀ e, alLookup addr s.new_pages = none → alLookup addr s.old_pages = some e →
      e.crc ≠ entry.crc →
      Info.update s u addr entry =
        ({ s with old_pages := alErase addr s.old_pages,
                  new_pages := alInsert addr ⟨entry.crc⟩ s.new_pages }, u)) ∧
    (∀ e, alLookup addr s.new_pages = none → alLookup addr s.old_pages = none →
      alLookup addr s.uksm_pages = some e → entry.is_ksm = true →
      e.crc = entry.crc → Info.update s u addr entry = (s, u)) ∧
    (∀ e, alLookup addr s.new_pages = none → alLookup addr s.old_pages = none →
      alLookup addr s.uksm_pages = some e →
      (entry.is_ksm = false ∨ e.crc ≠ entry.crc) →
      Info.update s u addr entry =
        ({ s with uksm_pages := alErase addr s.uksm_pages,
                  new_pages := alInsert addr ⟨entry.crc⟩ s.new_pages },
         u.remove s.pid addr e.crc)) ∧
    (∀ e, alLookup addr s.new_pages = some e →
      Info.remove s u addr = ({ s with new_pages := alErase addr s.new_pages }, u)) ∧
    (∀ e, alLookup addr s.new_pages = none → alLookup addr s.old_pages = some e →
      Info.remove s u addr = ({ s with old_pages := alErase addr s.old_pages }, u)) ∧
    (∀ e, alLookup addr s.new_pages = none → alLookup addr s.old_pages = none →
      alLookup addr s.uksm_pages = some e →
      Info.remove s u addr =
        ({ s with uksm_pages := alErase addr s.uksm_pages },
         u.remove s.pid addr e.crc)) ∧
    (alLookup addr s.new_pages = none → alLookup addr s.old_pages = none →
      alLookup addr s.uksm_pages = none → Info.remove s u addr = (s, u)) := by
  refine ⟨?_, ?_, ?_, ?_, ?_, ?_, ?_, ?_, ?_, ?_, ?_⟩
  · intro h1 h2 h3
    simp [Info.update, h1, h2, h3]
  · intro e h1 hc
    simp [Info.update, h1, hc]
  · intro e h1 hc
    simp [Info.update, h1, hc]
  · intro e h1 h2 hc
    simp [Info.update, h1, h2, hc]
  · intro e h1 h2 hc
    simp [Info.update, h1, h2, hc]
  · intro e h1 h2 h3 hk hc
    simp [Info.update, h1, h2, h3, hk, hc]
  · intro e h1 h2 h3 hkc
    have : entry.is_ksm = false ∨ e.crc ≠ entry.crc := hkc
    simp only [Info.update, h1, h2, h3]
    rw [if_pos this]
  · intro e h1
    simp [Info.remove, h1]
  · intro e h1 h2
    simp [Info.remove, h1, h2]
  · intro e h1 h2 h3
    simp [Info.remove, h1, h2, h3]
  · intro h1 h2 h3
    simp [Info.remove, h1, h2, h3]

/-- Concrete instances of C1: a fresh address enters new; a merged address
seen with is_ksm false moves back to new and is removed from the index. -/
theorem c1_transition_table_witness :
    Info.update (Info.new 1) Uksm.new 4096 ⟨0, 7, false, false⟩ =
      ({ Info.new 1 with new_pages := alInsert 4096 ⟨7⟩ [] }, Uksm.new) ∧
    Info.update ⟨1, [], [], [], [(4096, ⟨7⟩)]⟩ ⟨[(7, [[⟨1, 4096⟩]])]⟩ 4096
        ⟨0, 7, false, false⟩ =
      (⟨1, [], alInsert 4096 ⟨7⟩ [], [], alErase 4096 [(4096, ⟨7⟩)]⟩,
        Uksm.remove ⟨[(7, [[⟨1, 4096⟩]])]⟩ 1 4096 7) :=
  ⟨(c1_transition_table (Info.new 1) Uksm.new 4096 ⟨0, 7, false, false⟩).1 rfl rfl rfl,
   (c1_transition_table ⟨1, [], [], [], [(4096, ⟨7⟩)]⟩ ⟨[(7, [[⟨1, 4096⟩]])]⟩ 4096
       ⟨0, 7, false, false⟩).2.2.2.2.2.2.1 ⟨7⟩ rfl rfl rfl (Or.inl rfl)⟩

/-! ## C3: Del -/

/-- States of the scheduler reachable from a fresh `Tasks` by any sequence
of successful control operations. `Tasks::add_refresh_all` and
`Tasks::add_merge_all` rebuild their queue from a `HashSet`, whose
iteration order is unspecified, so they are modelled by any duplicate-free
list with the right membership (the union of the registry and the old
queue). -/
inductive CtlReach (P : Nat) : TasksSt → Prop
  | init : CtlReach P Tasks.new
  | add (s : TasksSt) (pid : Nat) (addr : Option (Nat × Nat)) (avail : Bool)
      (t : TasksSt) : CtlReach P s → Tasks.add P s pid addr avail = .ok t →
      CtlReach P t
  | del (s : TasksSt) (pid : Nat) (t : TasksSt) :
      CtlReach P s → Tasks.del s pid = .ok t → CtlReach P t
  | refreshAll (s : TasksSt) (r : List TaskInfo) : CtlReach P s →
      (∀ x, x ∈ r ↔ ((∃ p, (p, x) ∈ s.map) ∨ x ∈ s.refresh_target)) → r.Nodup →
      CtlReach P { s with refresh_target := r }
  | mergeAll (s : TasksSt) (r : List Nat) : CtlReach P s →
      (∀ x, x ∈ r ↔ ((∃ ti, (x, ti) ∈ s.map) ∨ x ∈ s.merge_target)) → r.Nodup →
      CtlReach P { s with merge_target := r }

/-- The scheduler state after Add(5), Del(5), Add(5) from a fresh scheduler:
pid 5 is registered again while the del queue still holds the entry from the
first Del. -/
def c3CexPre : TasksSt :=
  ⟨[(5, ⟨5, none⟩)], [⟨5, none⟩], [], [5], [5]⟩

/-- The state after one more Del(5): two del entries for pid 5. -/
def c3CexPost : TasksSt := ⟨[], [], [], [5], [5, 5]⟩

/-- C3 is false as stated: `Tasks::del` does not purge older del entries for
the pid, so after the control sequence Add(5), Del(5), Add(5) — all
reachable — a further Del(5) leaves the del queue with two entries for
pid 5, not exactly one. (The unmerge queue does hold exactly one.) -/
theorem c3_counterexample :
    CtlReach 4096 c3CexPre ∧ (alLookup 5 c3CexPre.map).isSome = true ∧
    Tasks.del c3CexPre 5 = .ok c3CexPost ∧
    c3CexPost.del_target.count 5 = 2 ∧ ¬ c3CexPost.del_target.count 5 = 1 := by
  refine ⟨?_, rfl, rfl, by decide, by decide⟩
  have h1 : Tasks.add 4096 Tasks.new 5 none true =
      .ok ⟨[(5, ⟨5, none⟩)], [⟨5, none⟩], [], [], []⟩ := rfl
  have h2 : Tasks.del ⟨[(5, ⟨5, none⟩)], [⟨5, none⟩], [], [], []⟩ 5 =
      .ok ⟨[], [], [], [5], [5]⟩ := rfl
  have h3 : Tasks.add 4096 ⟨[], [], [], [5], [5]⟩ 5 none true = .ok c3CexPre := rfl
  exact CtlReach.add _ 5 none true _
    (CtlReach.del _ 5 _ (CtlReach.add _ 5 none true _ CtlReach.init h1) h2) h3

/-- C3 amended: for every scheduler state (whatever the four queues hold)
with pid registered, Del(pid) removes pid from the registry, purges every
pending refresh and merge entry for pid, leaves the unmerge queue with
exactly one entry for pid sitting at its tail, and appends one del entry
for pid at the tail of the del queue — but it does not purge older del
entries for the pid, so the del queue ends with pid without necessarily
holding exactly one entry for it. -/
theorem c3_del_amended (s : TasksSt) (pid : Nat)
    (h : (alLookup pid s.map).isSome = true) :
    ∃ t, Tasks.del s pid = .ok t ∧
      alLookup pid t.map = none ∧
      (∀ ti ∈ t.refresh_target, ti.pid ≠ pid) ∧
      pid ∉ t.merge_target ∧
      t.unmerge_target.count pid = 1 ∧
      (∃ l, pid ∉ l ∧ t.unmerge_target = l ++ [pid]) ∧
      t.del_target = s.del_target ++ [pid] := by
  refine ⟨_, by rw [Tasks.del, if_pos h], ?_, ?_, ?_, ?_, ?_, rfl⟩
  · exact alLookup_alErase_self pid s.map
  · intro ti hti
    have := List.of_mem_filter hti
    simpa [bne_iff_ne] using this
  · intro hmem
    have := List.of_mem_filter hmem
    simp at this
  · rw [List.count_append]
    have h0 : (s.unmerge_target.filter (fun p => p != pid)).count pid = 0 := by
      rw [List.count_eq_zero]
      intro hmem
      have := List.of_mem_filter hmem
      simp at this
    rw [h0]
    simp
  · refine ⟨s.unmerge_target.filter (fun p => p != pid), ?_, rfl⟩
    intro hmem
    have := List.of_mem_filter hmem
    simp at this

/-- Concrete instance of the amended C3 at a state whose del queue already
holds an old entry for the pid. -/
theorem c3_del_amended_witness :
    ∃ t, Tasks.del ⟨[(7, ⟨7, none⟩)], [⟨7, none⟩, ⟨3, none⟩], [7, 4], [7], [7, 9]⟩ 7 =
        .ok t ∧
      alLookup 7 t.map = none ∧
      (∀ ti ∈ t.refresh_target, ti.pid ≠ 7) ∧
      (7 : Nat) ∉ t.merge_target ∧
      t.unmerge_target.count 7 = 1 ∧
      (∃ l, (7 : Nat) ∉ l ∧ t.unmerge_target = l ++ [7]) ∧
      t.del_target = [7, 9] ++ [7] :=
  c3_del_amended ⟨[(7, ⟨7, none⟩)], [⟨7, none⟩, ⟨3, none⟩], [7, 4], [7], [7, 9]⟩ 7 rfl

/-! ## C5: bucket disjointness -/

/-- Each address appears in at most one of the tracker's three buckets. -/
def BucketsDisjoint (s : Info) : Prop :=
  (∀ a, a ∈ alKeys s.new_pages → a ∉ alKeys s.old_pages) ∧
  (∀ a, a ∈ alKeys s.new_pages → a ∉ alKeys s.uksm_pages) ∧
  (∀ a, a ∈ alKeys s.old_pages → a ∉ alKeys s.uksm_pages)

theorem update_preserves_disjoint (s : Info) (u : Uksm) (addr : Nat)
    (entry : UKSMPagemapEntry) (hd : BucketsDisjoint s) :
    BucketsDisjoint (Info.update s u addr entry).1 := by
  obtain ⟨h1, h2, h3⟩ := hd
  simp only [Info.update]
  cases hn : alLookup addr s.new_pages with
  | some e =>
    dsimp only
    split
    · refine ⟨?_, ?_, h3⟩
      · intro a ha
        rcases mem_alKeys_alInsert.mp ha with rfl | ⟨ha', _⟩
        · exact h1 _ (alLookup_isSome_mem hn)
        · exact h1 _ ha'
      · intro a ha
        rcases mem_alKeys_alInsert.mp ha with rfl | ⟨ha', _⟩
        · exact h2 _ (alLookup_isSome_mem hn)
        · exact h2 _ ha'
    · refine ⟨?_, ?_, ?_⟩
      · intro a ha hmem
        obtain ⟨ha', hne⟩ := mem_alKeys_alErase.mp ha
        rcases mem_alKeys_alInsert.mp hmem with rfl | ⟨ho, _⟩
        · exact hne rfl
        · exact h1 _ ha' ho
      · intro a ha
        exact h2 _ (mem_alKeys_alErase.mp ha).1
      · intro a ha
        rcases mem_alKeys_alInsert.mp ha with rfl | ⟨ho, _⟩
        · exact h2 _ (alLookup_isSome_mem hn)
        · exact h3 _ ho
  | none =>
    dsimp only
    cases ho : alLookup addr s.old_pages with
    | some e =>
      dsimp only
      split
      · refine ⟨?_, ?_, ?_⟩
        · intro a ha hmem
          rcases mem_alKeys_alInsert.mp ha with rfl | ⟨hn', _⟩
          · exact (mem_alKeys_alErase.mp hmem).2 rfl
          · exact h1 _ hn' (mem_alKeys_alErase.mp hmem).1
        · intro a ha
          rcases mem_alKeys_alInsert.mp ha with rfl | ⟨hn', _⟩
          · exact h3 _ (alLookup_isSome_mem ho)
          · exact h2 _ hn'
        · intro a ha
          exact h3 _ (mem_alKeys_alErase.mp ha).1
      · exact ⟨h1, h2, h3⟩
    | none =>
      dsimp only
      cases hu : alLookup addr s.uksm_pages with
      | some e =>
        dsimp only
        split
        · refine ⟨?_, ?_, ?_⟩
          · intro a ha
            rcases mem_alKeys_alInsert.mp ha with rfl | ⟨hn', _⟩
            · exact alLookup_eq_none_iff.mp ho
            · exact h1 _ hn'
          · intro a ha hmem
            obtain ⟨hu', hne⟩ := mem_alKeys_alErase.mp hmem
            rcases mem_alKeys_alInsert.mp ha with rfl | ⟨hn', _⟩
            · exact hne rfl
            · exact h2 _ hn' hu'
          · intro a ha hmem
            exact h3 _ ha (mem_alKeys_alErase.mp hmem).1
        · exact ⟨h1, h2, h3⟩
      | none =>
        dsimp only
        refine ⟨?_, ?_, h3⟩
        · intro a ha
          rcases mem_alKeys_alInsert.mp ha with rfl | ⟨hn', _⟩
          · exact alLookup_eq_none_iff.mp ho
          · exact h1 _ hn'
        · intro a ha
          rcases mem_alKeys_alInsert.mp ha with rfl | ⟨hn', _⟩
          · exact alLookup_eq_none_iff.mp hu
          · exact h2 _ hn'

theorem remove_preserves_disjoint (s : Info) (u : Uksm) (addr : Nat)
    (hd : BucketsDisjoint s) : BucketsDisjoint (Info.remove s u addr).1 := by
  obtain ⟨h1, h2, h3⟩ := hd
  simp only [Info.remove]
  split
  · exact ⟨fun a ha => h1 _ (mem_alKeys_alErase.mp ha).1,
      fun a ha => h2 _ (mem_alKeys_alErase.mp ha).1, h3⟩
  · split
    · exact ⟨fun a ha hm => h1 _ ha (mem_alKeys_alErase.mp hm).1, h2,
        fun a ha => h3 _ (mem_alKeys_alErase.mp ha).1⟩
    · cases hu : alLookup addr s.uksm_pages with
      | some e =>
        dsimp only
        exact ⟨h1, fun a ha hm => h2 _ ha (mem_alKeys_alErase.mp hm).1,
          fun a ha hm => h3 _ ha (mem_alKeys_alErase.mp hm).1⟩
      | none => exact ⟨h1, h2, h3⟩

theorem mergeLoop_preserves_disjoint (gw : GwM) :
    ∀ (addrs : List Nat) (s : Info) (u : Uksm), BucketsDisjoint s →
      BucketsDisjoint (mergeLoop gw s u addrs).1 := by
  intro addrs
  induction addrs with
  | nil => intro s u hd; exact hd
  | cons addr rest ih =>
    intro s u hd
    simp only [mergeLoop]
    cases h : alLookup addr s.old_pages with
    | none => exact ih s u hd
    | some entry =>
      dsimp only
      cases hadd : u.add s.pid addr entry gw with
      | error e => exact hd
      | ok u' =>
        dsimp only
        apply ih
        obtain ⟨h1, h2, h3⟩ := hd
        have haddr : addr ∈ alKeys s.old_pages := alLookup_isSome_mem h
        refine ⟨?_, ?_, ?_⟩
        · intro a ha hmem
          exact h1 _ ha (mem_alKeys_alErase.mp hmem).1
        · intro a ha hmem
          rcases mem_alKeys_alInsert.mp hmem with rfl | ⟨hu'', _⟩
          · exact h1 _ ha haddr
          · exact h2 _ ha hu''
        · intro a ha hmem
          obtain ⟨ho, hne⟩ := mem_alKeys_alErase.mp ha
          rcases mem_alKeys_alInsert.mp hmem with rfl | ⟨hu'', _⟩
          · exact hne rfl
          · exact h3 _ ho hu''

theorem unmergeLoop_preserves_disjoint (ugw : UgwM) :
    ∀ (addrs : List Nat) (s : Info) (u : Uksm), BucketsDisjoint s →
      BucketsDisjoint (unmergeLoop ugw s u addrs).1 := by
  intro addrs
  induction addrs with
  | nil => intro s u hd; exact hd
  | cons addr rest ih =>
    intro s u hd
    simp only [unmergeLoop]
    cases h : alLookup addr s.uksm_pages with
    | none => exact ih s u hd
    | some entry =>
      dsimp only
      cases hun : u.unmerge s.pid addr entry ugw with
      | error e => exact hd
      | ok u' =>
        dsimp only
        apply ih
        obtain ⟨h1, h2, h3⟩ := hd
        have haddr : addr ∈ alKeys s.uksm_pages := alLookup_isSome_mem h
        refine ⟨?_, ?_, ?_⟩
        · intro a ha hmem
          rcases mem_alKeys_alInsert.mp hmem with rfl | ⟨ho, _⟩
          · exact h2 _ ha haddr
          · exact h1 _ ha ho
        · intro a ha hmem
          exact h2 _ ha (mem_alKeys_alErase.mp hmem).1
        · intro a ha hmem
          obtain ⟨hu', hne⟩ := mem_alKeys_alErase.mp hmem
          rcases mem_alKeys_alInsert.mp ha with rfl | ⟨ho, _⟩
          · exact hne rfl
          · exact h3 _ ho hu'

/-- Tracker-plus-index states reachable from an empty tracker by any
sequence of update, remove, merge and unmerge operations (merge and
unmerge under an arbitrary gateway, so partially advanced error states are
included). -/
inductive PReach : Info × Uksm → Prop
  | init (pid : Nat) : PReach (Info.new pid, Uksm.new)
  | upd (su : Info × Uksm) (addr : Nat) (entry : UKSMPagemapEntry) :
      PReach su → PReach (Info.update su.1 su.2 addr entry)
  | rem (su : Info × Uksm) (addr : Nat) :
      PReach su → PReach (Info.remove su.1 su.2 addr)
  | mrg (su : Info × Uksm) (gw : GwM) : PReach su →
      PReach ((Info.merge su.1 su.2 gw).1, (Info.merge su.1 su.2 gw).2.1)
  | unm (su : Info × Uksm) (ugw : UgwM) : PReach su →
      PReach ((Info.unmerge su.1 su.2 ugw).1, (Info.unmerge su.1 su.2 ugw).2.1)

/-- C5: for every tracker state reachable from the empty tracker by any
sequence of update, remove, merge and unmerge operations, the address sets
of the three buckets new, old and merged are pairwise disjoint. -/
theorem c5_bucket_disjointness (su : Info × Uksm) (h : PReach su) :
    BucketsDisjoint su.1 := by
  induction h with
  | init pid =>
    refine ⟨?_, ?_, ?_⟩ <;> intro a ha <;> simp [Info.new, alKeys] at ha
  | upd su addr entry _ ih => exact update_preserves_disjoint su.1 su.2 addr entry ih
  | rem su addr _ ih => exact remove_preserves_disjoint su.1 su.2 addr ih
  | mrg su gw _ ih =>
    exact mergeLoop_preserves_disjoint gw (alKeys su.1.old_pages) su.1 su.2 ih
  | unm su ugw _ ih =>
    exact unmergeLoop_preserves_disjoint ugw (alKeys su.1.uksm_pages) su.1 su.2 ih

/-- Concrete instance of C5 at the empty tracker. -/
theorem c5_bucket_disjointness_witness : BucketsDisjoint (Info.new 0) :=
  c5_bucket_disjointness (Info.new 0, Uksm.new) (PReach.init 0)

/-! ## C6: merge then unmerge round trip -/

theorem alErase_alInsert {α : Type} (k : Nat) (v : α) (l : List (Nat × α)) :
    alErase k (alInsert k v l) = alErase k l := by
  simp [alInsert, alErase, List.filter_filter]

/-- A state with one old page (addr 16, crc 7) and one already-merged page
(addr 32, crc 9) recorded in the merge index. -/
def c6CexInfo : Info := ⟨1, [], [], [(16, ⟨7⟩)], [(32, ⟨9⟩)]⟩

def c6CexUksm : Uksm := ⟨[(9, [[⟨1, 32⟩]])]⟩

def c6CexMerge : Info × Uksm × Bool := Info.merge c6CexInfo c6CexUksm gwTrue

def c6CexFinal : Info × Uksm × Bool :=
  Info.unmerge c6CexMerge.1 c6CexMerge.2.1 ugwOk

/-- C6 is false as stated for arbitrary starting states: from a state where
addr 16 of pid 1 is in old with crc 7 but the merged bucket also holds
addr 32 with crc 9 (indexed under crc 9), a merge pass followed by an
unmerge pass succeeds throughout and does leave addr 16 in old with crc 7,
but the unmerge pass also dismantles the pre-existing crc-9 class — the
index changes outside the class the merge pass created (crc 7 ≠ 9). -/
theorem c6_counterexample :
    c6CexMerge.2.2 = true ∧ c6CexFinal.2.2 = true ∧
    alLookup 16 c6CexFinal.1.old_pages = some ⟨7⟩ ∧
    alLookup 9 c6CexUksm.pages = some [[⟨1, 32⟩]] ∧
    alLookup 9 c6CexFinal.2.1.pages = none ∧ (9 : Nat) ≠ 7 :=
  ⟨rfl, rfl, rfl, rfl, rfl, by decide⟩


/-! ## C9: range subtraction -/

theorem foldl_append_eq_concatMap {α β : Type} (f : α → List β) :
    ∀ (l : List α) (acc : List β),
      l.foldl (fun c x => c ++ f x) acc = acc ++ concatMap f l := by
  intro l
  induction l with
  | nil => intro acc; simp [concatMap]
  | cons x xs ih =>
    intro acc
    simp only [List.foldl_cons, concatMap]
    rw [ih, List.append_assoc]

theorem mem_insertByStart {b x : MapRange} :
    ∀ {l : List MapRange}, x ∈ insertByStart b l ↔ x = b ∨ x ∈ l := by
  intro l
  induction l with
  | nil => simp [insertByStart]
  | cons a as ih =>
    simp only [insertByStart]
    split
    · simp [List.mem_cons]
    · simp only [List.mem_cons, ih]
      tauto

theorem mem_sortByStart {x : MapRange} :
    ∀ {l : List MapRange}, x ∈ sortByStart l ↔ x ∈ l := by
  intro l
  induction l with
  | nil => simp [sortByStart]
  | cons a as ih =>
    simp only [sortByStart, mem_insertByStart, ih, List.mem_cons]

theorem pairwise_insertByStart {b : MapRange} :
    ∀ {l : List MapRange}, l.Pairwise (fun p q => p.start ≤ q.start) →
      (insertByStart b l).Pairwise (fun p q => p.start ≤ q.start) := by
  intro l
  induction l with
  | nil => intro _; simp [insertByStart]
  | cons a as ih =>
    intro hp
    rw [List.pairwise_cons] at hp
    obtain ⟨ha, has⟩ := hp
    simp only [insertByStart]
    split
    · rename_i hba
      refine List.Pairwise.cons ?_ (List.Pairwise.cons ha has)
      intro y hy
      rcases List.mem_cons.mp hy with rfl | hy'
      · exact hba
      · exact le_trans hba (ha y hy')
    · rename_i hba
      refine List.Pairwise.cons ?_ (ih has)
      intro y hy
      rcases mem_insertByStart.mp hy with rfl | hy'
      · omega
      · exact ha y hy'

theorem pairwise_sortByStart (l : List MapRange) :
    (sortByStart l).Pairwise (fun p q => p.start ≤ q.start) := by
  induction l with
  | nil => simp [sortByStart]
  | cons a as ih => exact pairwise_insertByStart ih

theorem subSweep_cov :
    ∀ (bs : List MapRange) (cur aEnd : Nat),
      bs.Pairwise (fun p q => p.start ≤ q.start) →
      (∀ b ∈ bs, b.start < aEnd) →
      ∀ x, (∃ c ∈ subSweep cur aEnd bs, c.start ≤ x ∧ x < c.stop) ↔
        (cur ≤ x ∧ x < aEnd ∧ ∀ b ∈ bs, ¬(b.start ≤ x ∧ x < b.stop)) := by
  intro bs
  induction bs with
  | nil =>
    intro cur aEnd _ _ x
    simp only [subSweep, List.not_mem_nil, false_implies, implies_true, and_true]
    split
    · constructor
      · rintro ⟨c, hc, hcx⟩
        rcases List.mem_singleton.mp hc with rfl
        exact hcx
      · intro hc
        exact ⟨_, List.mem_singleton.mpr rfl, hc⟩
    · rename_i h
      constructor
      · rintro ⟨c, hc, hcx⟩
        exact absurd hc (List.not_mem_nil c)
      · rintro ⟨h1, h2⟩
        exact absurd (lt_of_le_of_lt h1 h2) h
  | cons b rest ih =>
    intro cur aEnd hp ha x
    rw [List.pairwise_cons] at hp
    obtain ⟨hb_le, hp'⟩ := hp
    have hbend : b.start < aEnd := ha b (by simp)
    have ha' : ∀ b' ∈ rest, b'.start < aEnd := fun b' h => ha b' (by simp [h])
    simp only [subSweep]
    have ihx := ih (if cur < b.stop then b.stop else cur) aEnd hp' ha' x
    constructor
    · rintro ⟨c, hc, hcx⟩
      rcases List.mem_append.mp hc with hc1 | hc2
      · split at hc1
        · rename_i hcb
          rcases List.mem_singleton.mp hc1 with rfl
          refine ⟨hcx.1, ?_, ?_⟩
          · have := hcx.2
            dsimp only at this
            omega
          · intro b' hb'
            rcases List.mem_cons.mp hb' with rfl | hb''
            · have := hcx.2
              dsimp only at this
              omega
            · have h1 := hb_le b' hb''
              have := hcx.2
              dsimp only at this
              omega
        · cases hc1
      · obtain ⟨hcur', hxe, hnr⟩ := ihx.mp ⟨c, hc2, hcx⟩
        refine ⟨?_, hxe, ?_⟩
        · split at hcur' <;> omega
        · intro b' hb'
          rcases List.mem_cons.mp hb' with rfl | hb''
          · split at hcur' <;> omega
          · exact hnr b' hb''
    · rintro ⟨hcx, hxe, hnb⟩
      have hnbb : ¬(b.start ≤ x ∧ x < b.stop) := hnb b (by simp)
      by_cases hxb : x < b.start
      · refine ⟨⟨cur, b.start⟩, ?_, hcx, hxb⟩
        apply List.mem_append.mpr
        left
        have hltb : cur < b.start := lt_of_le_of_lt hcx hxb
        simp [hltb]
      · have hxbe : b.stop ≤ x := by omega
        obtain ⟨c, hc, hcx'⟩ := ihx.mpr
          ⟨by split <;> omega, hxe, fun b' hb' => hnb b' (by simp [hb'])⟩
        exact ⟨c, List.mem_append.mpr (Or.inr hc), hcx'⟩

theorem subSweep_bounds :
    ∀ (bs : List MapRange) (cur aEnd : Nat),
      (∀ b ∈ bs, b.start < aEnd) →
      ∀ c ∈ subSweep cur aEnd bs, cur ≤ c.start ∧ c.start < c.stop ∧ c.stop ≤ aEnd := by
  intro bs
  induction bs with
  | nil =>
    intro cur aEnd _ c hc
    simp only [subSweep] at hc
    split at hc
    · rcases List.mem_singleton.mp hc with rfl
      rename_i h
      exact ⟨le_refl _, h, le_refl _⟩
    · cases hc
  | cons b rest ih =>
    intro cur aEnd ha c hc
    have hbend : b.start < aEnd := ha b (by simp)
    simp only [subSweep] at hc
    rcases List.mem_append.mp hc with hc1 | hc2
    · split at hc1
      · rcases List.mem_singleton.mp hc1 with rfl
        rename_i hcb
        exact ⟨le_refl _, hcb, le_of_lt hbend⟩
      · cases hc1
    · have hres := ih (if cur < b.stop then b.stop else cur) aEnd
        (fun b' h => ha b' (by simp [h])) c hc2
      refine ⟨?_, hres.2.1, hres.2.2⟩
      have := hres.1
      split at this <;> omega

theorem subSweep_pairwise :
    ∀ (bs : List MapRange) (cur aEnd : Nat),
      (∀ b ∈ bs, b.start < b.stop ∧ b.start < aEnd) →
      (subSweep cur aEnd bs).Pairwise (fun c d => c.stop < d.start) := by
  intro bs
  induction bs with
  | nil =>
    intro cur aEnd _
    simp only [subSweep]
    split <;> simp
  | cons b rest ih =>
    intro cur aEnd hwf
    have hb := hwf b (by simp)
    have hrest : ∀ b' ∈ rest, b'.start < b'.stop ∧ b'.start < aEnd :=
      fun b' h => hwf b' (by simp [h])
    simp only [subSweep]
    rw [List.pairwise_append]
    refine ⟨?_, ih _ aEnd hrest, ?_⟩
    · split <;> simp
    · intro c hc d hd
      split at hc
      · rcases List.mem_singleton.mp hc with rfl
        have hd' := subSweep_bounds rest _ aEnd (fun b' h => (hrest b' h).2) d hd
        have h1 := hd'.1
        show b.start < d.start
        split at h1 <;> omega
      · cases hc

/-- C9: the range-subtraction function returns, for each interval A of the
previous map list in input order, the set difference of A and the union of
the current intervals overlapping A (equivalently, of all current
intervals): a point lies in some emitted remainder of A iff it lies in A
and in no current interval; every emitted remainder is a non-empty
sub-interval of A; and within each A the remainders are emitted in
ascending address order, separated by covered gaps (hence maximal). -/
theorem c9_range_subtraction (a b : List MapRange)
    (hb : ∀ r ∈ b, r.start < r.stop) :
    find_non_overlapping_ranges a b = concatMap (fun ra => subA ra b) a ∧
    ∀ ra ∈ a,
      (∀ x, (∃ c ∈ subA ra b, c.start ≤ x ∧ x < c.stop) ↔
        ((ra.start ≤ x ∧ x < ra.stop) ∧ ∀ rb ∈ b, ¬(rb.start ≤ x ∧ x < rb.stop))) ∧
      (∀ c ∈ subA ra b, ra.start ≤ c.start ∧ c.start < c.stop ∧ c.stop ≤ ra.stop) ∧
      (subA ra b).Pairwise (fun c d => c.stop < d.start) := by
  constructor
  · simp only [find_non_overlapping_ranges]
    rw [foldl_append_eq_concatMap, List.nil_append]
  · intro ra hra
    have hsorted := pairwise_sortByStart (b.filter (fun rb => overlapsA ra rb))
    have hlt : ∀ rb ∈ sortByStart (b.filter (fun rb => overlapsA ra rb)),
        rb.start < ra.stop := by
      intro rb hrb
      have hmem := mem_sortByStart.mp hrb
      have ho := List.of_mem_filter hmem
      simp only [overlapsA, Bool.and_eq_true, decide_eq_true_eq] at ho
      exact ho.1
    refine ⟨?_, ?_, ?_⟩
    · intro x
      rw [subA, subSweep_cov _ ra.start ra.stop hsorted hlt x]
      constructor
      · rintro ⟨h1, h2, h3⟩
        refine ⟨⟨h1, h2⟩, ?_⟩
        intro rb hrb hx
        have hov : overlapsA ra rb = true := by
          simp only [overlapsA, Bool.and_eq_true, decide_eq_true_eq]
          constructor <;> omega
        exact h3 rb (mem_sortByStart.mpr (List.mem_filter.mpr ⟨hrb, hov⟩)) hx
      · rintro ⟨⟨h1, h2⟩, h3⟩
        refine ⟨h1, h2, ?_⟩
        intro rb hrb
        exact h3 rb (List.mem_filter.mp (mem_sortByStart.mp hrb)).1
    · intro c hc
      rw [subA] at hc
      exact subSweep_bounds _ ra.start ra.stop hlt c hc
    · rw [subA]
      apply subSweep_pairwise
      intro b' hb'
      exact ⟨hb b' (List.mem_filter.mp (mem_sortByStart.mp hb')).1, hlt b' hb'⟩

/-- Concrete instance of C9. -/
theorem c9_range_subtraction_witness :
    find_non_overlapping_ranges [⟨0, 100⟩] [⟨10, 20⟩] =
      concatMap (fun ra => subA ra [⟨10, 20⟩]) [⟨0, 100⟩] ∧
    (subA ⟨0, 100⟩ [⟨10, 20⟩]).Pairwise (fun c d => c.stop < d.start) :=
  ⟨(c9_range_subtraction [⟨0, 100⟩] [⟨10, 20⟩] (by decide)).1,
   ((c9_range_subtraction [⟨0, 100⟩] [⟨10, 20⟩] (by decide)).2 ⟨0, 100⟩
     (by decide)).2.2⟩

/-! ## C6 amended: lookup characterizations and index add/remove cancellation -/

theorem alLookup_cons {α : Type} (a : Nat) (v : α) (l : List (Nat × α)) (k : Nat) :
    alLookup k ((a, v) :: l) = if a = k then some v else alLookup k l := by
  simp only [alLookup, List.find?]
  by_cases h : a = k
  · subst h
    simp
  · have hb : (a == k) = false := beq_eq_false_iff_ne.mpr h
    simp [hb, h]

theorem alErase_cons_self {α : Type} (a : Nat) (v : α) (l : List (Nat × α)) :
    alErase a ((a, v) :: l) = alErase a l := by
  simp [alErase, List.filter_cons]

theorem alErase_cons_ne {α : Type} {a k : Nat} (v : α) (l : List (Nat × α))
    (h : a ≠ k) : alErase k ((a, v) :: l) = (a, v) :: alErase k l := by
  simp [alErase, List.filter_cons, h]

theorem alLookup_alErase_eq {α : Type} (k kq : Nat) (l : List (Nat × α)) :
    alLookup kq (alErase k l) = if kq = k then none else alLookup kq l := by
  induction l with
  | nil =>
    simp only [alErase, List.filter_nil, alLookup, List.find?, Option.map_none']
    split <;> rfl
  | cons p l ih =>
    obtain ⟨a, v⟩ := p
    by_cases hak : a = k
    · subst hak
      rw [alErase_cons_self, ih, alLookup_cons]
      by_cases h2 : kq = a
      · simp [h2]
      · rw [if_neg h2, if_neg h2, if_neg (fun he => h2 he.symm)]
    · rw [alErase_cons_ne v l hak, alLookup_cons, alLookup_cons]
      by_cases h2 : a = kq
      · subst h2
        rw [if_pos rfl, if_pos rfl, if_neg hak]
      · rw [if_neg h2, if_neg h2, ih]

theorem alLookup_alInsert_eq {α : Type} (k kq : Nat) (v : α) (l : List (Nat × α)) :
    alLookup kq (alInsert k v l) = if kq = k then some v else alLookup kq l := by
  rw [alInsert, alLookup_cons]
  by_cases h : kq = k
  · subst h
    simp
  · rw [if_neg (fun he => h he.symm), if_neg h, alLookup_alErase_eq, if_neg h]

theorem alKeys_append {α : Type} (l₁ l₂ : List (Nat × α)) :
    alKeys (l₁ ++ l₂) = alKeys l₁ ++ alKeys l₂ := by
  simp [alKeys]

theorem tryClass_total (gw : GwM) (n : PidAddr)
    (hgw : ∀ x y, ∃ b, gw x y = .ok b) :
    ∀ k : List PidAddr, ∃ b, tryClass gw n k = .ok b := by
  intro k
  induction k with
  | nil => exact ⟨false, rfl⟩
  | cons m rest ih =>
    obtain ⟨b, hb⟩ := hgw m n
    cases b
    · obtain ⟨b2, hb2⟩ := ih
      exact ⟨b2, by simp [tryClass, hb, hb2]⟩
    · exact ⟨true, by simp [tryClass, hb]⟩

theorem addToVec_total_shape (gw : GwM) (n : PidAddr)
    (hgw : ∀ x y, ∃ b, gw x y = .ok b) :
    ∀ vec : List (List PidAddr), ∃ vec',
      addToVec gw n vec = .ok vec' ∧
      ((∃ pre k post, vec = pre ++ k :: post ∧ k ≠ [] ∧
          vec' = pre ++ (k ++ [n]) :: post) ∨
        vec' = vec ++ [[n]]) := by
  intro vec
  induction vec with
  | nil => exact ⟨[[n]], rfl, Or.inr rfl⟩
  | cons k₀ rest ih =>
    obtain ⟨b, hb⟩ := tryClass_total gw n hgw k₀
    cases b
    · obtain ⟨rest', hrest, hshape⟩ := ih
      refine ⟨k₀ :: rest', by simp [addToVec, hb, hrest], ?_⟩
      rcases hshape with ⟨pre, k, post, hveq, hkne, hveq2⟩ | hveq2
      · exact Or.inl ⟨k₀ :: pre, k, post, by rw [hveq]; rfl, hkne, by rw [hveq2]; rfl⟩
      · exact Or.inr (by rw [hveq2]; rfl)
    · refine ⟨(k₀ ++ [n]) :: rest, by simp [addToVec, hb], ?_⟩
      refine Or.inl ⟨[], k₀, rest, rfl, ?_, rfl⟩
      intro hk0
      rw [hk0] at hb
      simp [tryClass] at hb

theorem removeScan_append (p a : Nat) :
    ∀ (pre : List (List PidAddr)),
      (∀ k' ∈ pre, ∀ q ∈ k', ¬(q.pid = p ∧ q.addr = a)) →
      ∀ (k : List PidAddr), (∀ q ∈ k, ¬(q.pid = p ∧ q.addr = a)) →
      ∀ post, removeScan p a (pre ++ (k ++ [⟨p, a⟩]) :: post) =
        (pre ++ k :: post, true, k.isEmpty) := by
  intro pre
  induction pre with
  | nil =>
    intro _ k hk post
    have hfk : (k ++ [(⟨p, a⟩ : PidAddr)]).filter
        (fun pa => pa.pid != p || pa.addr != a) = k := by
      rw [List.filter_append]
      have h1 : k.filter (fun pa => pa.pid != p || pa.addr != a) = k :=
        List.filter_eq_self.mpr (fun q hq => by
          have hq2 := hk q hq
          simp only [Bool.or_eq_true, bne_iff_ne, ne_eq]
          tauto)
      have h2 : ([⟨p, a⟩] : List PidAddr).filter
          (fun pa => pa.pid != p || pa.addr != a) = [] := by simp
      rw [h1, h2, List.append_nil]
    have hlen : k.length ≠ (k ++ [(⟨p, a⟩ : PidAddr)]).length := by simp
    simp only [List.nil_append, removeScan, hfk]
    rw [if_pos hlen]
  | cons k₀ pre' ih =>
    intro hpre k hk post
    have hfk0 : k₀.filter (fun pa => pa.pid != p || pa.addr != a) = k₀ :=
      List.filter_eq_self.mpr (fun q hq => by
        have hq2 := hpre k₀ (by simp) q hq
        simp only [Bool.or_eq_true, bne_iff_ne, ne_eq]
        tauto)
    simp only [List.cons_append, removeScan, hfk0]
    rw [if_neg (by simp)]
    simp only [List.append_eq]
    rw [ih (fun k' hk' => hpre k' (by simp [hk'])) k hk post]

theorem remove_shape1 (p a c : Nat) (pre post : List (List PidAddr))
    (k : List PidAddr) (u' : Uksm)
    (hl : alLookup c u'.pages = some (pre ++ (k ++ [⟨p, a⟩]) :: post))
    (hpre : ∀ k' ∈ pre, ∀ q ∈ k', ¬(q.pid = p ∧ q.addr = a))
    (hk : ∀ q ∈ k, ¬(q.pid = p ∧ q.addr = a)) (hkne : k ≠ []) :
    ∀ crc', alLookup crc' (Uksm.remove u' p a c).pages =
      if crc' = c then some (pre ++ k :: post) else alLookup crc' u'.pages := by
  intro crc'
  have hke : k.isEmpty = false := by
    cases k
    · exact absurd rfl hkne
    · rfl
  simp only [Uksm.remove, hl, removeScan_append p a pre hpre k hk post, hke]
  rw [if_neg (by simp), alLookup_alInsert_eq]

theorem remove_shape2 (p a c : Nat) (vec : List (List PidAddr)) (u' : Uksm)
    (hl : alLookup c u'.pages = some (vec ++ [[⟨p, a⟩]]))
    (hvec : ∀ k' ∈ vec, ∀ q ∈ k', ¬(q.pid = p ∧ q.addr = a))
    (hne : ∀ k' ∈ vec, k' ≠ []) :
    ∀ crc', alLookup crc' (Uksm.remove u' p a c).pages =
      if crc' = c then (if vec.isEmpty then none else some vec)
      else alLookup crc' u'.pages := by
  intro crc'
  have hscan := removeScan_append p a vec hvec [] (by intro q hq; cases hq) []
  simp only [List.nil_append] at hscan
  have hfil : ((vec ++ [[]] : List (List PidAddr)).filter (fun k => !k.isEmpty)) = vec := by
    rw [List.filter_append]
    have h1 : vec.filter (fun k => !k.isEmpty) = vec :=
      List.filter_eq_self.mpr (fun k hkv => by
        cases hcase : k
        · exact absurd hcase (hne k hkv)
        · rfl)
    have h2 : ([[]] : List (List PidAddr)).filter (fun k => !k.isEmpty) = [] := rfl
    rw [h1, h2, List.append_nil]
  simp only [Uksm.remove, hl, hscan, hfil]
  rw [if_pos (show (List.isEmpty ([] : List PidAddr)) = true from rfl)]
  by_cases hv : vec.isEmpty
  · rw [if_pos hv, if_pos hv, alLookup_alErase_eq]
  · rw [if_neg hv, if_neg hv, alLookup_alInsert_eq]

theorem remove_lookup_ext (u v : Uksm) (p a c : Nat)
    (h : ∀ crc', alLookup crc' u.pages = alLookup crc' v.pages) :
    ∀ crc', alLookup crc' (Uksm.remove u p a c).pages =
      alLookup crc' (Uksm.remove v p a c).pages := by
  intro crc'
  have hc := h c
  cases hv : alLookup c v.pages with
  | none =>
    have hu : alLookup c u.pages = none := hc.trans hv
    simp only [Uksm.remove, hu, hv]
    exact h crc'
  | some vec =>
    have hu : alLookup c u.pages = some vec := hc.trans hv
    simp only [Uksm.remove, hu, hv]
    by_cases h1 : (removeScan p a vec).2.2 = true
    · rw [if_pos h1, if_pos h1]
      by_cases h2 : ((removeScan p a vec).1.filter (fun k => !k.isEmpty)).isEmpty = true
      · rw [if_pos h2, if_pos h2, alLookup_alErase_eq, alLookup_alErase_eq]
        split
        · rfl
        · exact h crc'
      · rw [if_neg h2, if_neg h2, alLookup_alInsert_eq, alLookup_alInsert_eq]
        split
        · rfl
        · exact h crc'
    · rw [if_neg h1, if_neg h1, alLookup_alInsert_eq, alLookup_alInsert_eq]
      split
      · rfl
      · exact h crc'

theorem unmergeLoop_append (ugw : UgwM) :
    ∀ (l₁ : List Nat) (s : Info) (u : Uksm) (s' : Info) (u' : Uksm),
      unmergeLoop ugw s u l₁ = (s', u', true) →
      ∀ l₂, unmergeLoop ugw s u (l₁ ++ l₂) = unmergeLoop ugw s' u' l₂ := by
  intro l₁
  induction l₁ with
  | nil =>
    intro s u s' u' h l₂
    simp only [unmergeLoop] at h
    injection h with h1 h2
    injection h2 with h2a h2b
    subst h1
    subst h2a
    rw [List.nil_append]
  | cons addr rest ih =>
    intro s u s' u' h l₂
    rw [List.cons_append]
    simp only [unmergeLoop] at h ⊢
    cases hl : alLookup addr s.uksm_pages with
    | none =>
      simp only [hl] at h ⊢
      exact ih _ _ _ _ h l₂
    | some entry =>
      simp only [hl] at h ⊢
      cases hm : Uksm.unmerge u s.pid addr entry ugw with
      | error e =>
        simp only [hm] at h
        injection h with h1 h2
        injection h2 with h2a h2b
        cases h2b
      | ok u₁ =>
        simp only [hm] at h ⊢
        exact ih _ _ _ _ h l₂

theorem mergeUnmerge_loop (gw : GwM) (ugw : UgwM)
    (hgw : ∀ x y, ∃ b, gw x y = .ok b) (hugw : ∀ x, ugw x = .ok ()) :
    ∀ (addrs : List Nat) (s : Info) (u : Uksm),
      (∀ x, x ∈ alKeys s.old_pages → x ∉ alKeys s.uksm_pages) →
      (∀ crc vec, alLookup crc u.pages = some vec → vec ≠ [] ∧
        ∀ k ∈ vec, k ≠ [] ∧ ∀ q ∈ k, q.pid = s.pid → q.addr ∈ alKeys s.uksm_pages) →
      ∃ s₁ u₁ moved s₂ u₂,
        mergeLoop gw s u addrs = (s₁, u₁, true) ∧
        s₁.uksm_pages = moved ++ s.uksm_pages ∧
        unmergeLoop ugw s₁ u₁ (alKeys moved) = (s₂, u₂, true) ∧
        s₂.pid = s.pid ∧ s₂.maps = s.maps ∧ s₂.new_pages = s.new_pages ∧
        s₂.uksm_pages = s.uksm_pages ∧
        (∀ x, alLookup x s₂.old_pages = alLookup x s.old_pages) ∧
        (∀ crc', alLookup crc' u₂.pages = alLookup crc' u.pages) := by
  intro addrs
  induction addrs with
  | nil =>
    intro s u _ _
    exact ⟨s, u, [], s, u, rfl, (List.nil_append _).symm, rfl, rfl, rfl, rfl, rfl,
      fun _ => rfl, fun _ => rfl⟩
  | cons addr rest ih =>
    intro s u hd hinv
    cases ho : alLookup addr s.old_pages with
    | none =>
      obtain ⟨s₁, u₁, moved, s₂, u₂, hm, hrest⟩ := ih s u hd hinv
      refine ⟨s₁, u₁, moved, s₂, u₂, ?_, hrest⟩
      simp only [mergeLoop, ho]
      exact hm
    | some entry =>
      have haddr_old : addr ∈ alKeys s.old_pages := alLookup_isSome_mem ho
      have haddr_nu : addr ∉ alKeys s.uksm_pages := hd addr haddr_old
      have hd' : ∀ x, x ∈ alKeys (alErase addr s.old_pages) →
          x ∉ alKeys (alInsert addr entry s.uksm_pages) := by
        intro x hx hmem
        obtain ⟨hxo, hxne⟩ := mem_alKeys_alErase.mp hx
        rcases mem_alKeys_alInsert.mp hmem with rfl | ⟨hxu, _⟩
        · exact hxne rfl
        · exact hd x hxo hxu
      have hsup : ∀ y, y ∈ alKeys s.uksm_pages →
          y ∈ alKeys (alInsert addr entry s.uksm_pages) := by
        intro y hy
        exact mem_alKeys_alInsert.mpr (Or.inr ⟨hy, fun he => haddr_nu (he ▸ hy)⟩)
      have haddr_in : addr ∈ alKeys (alInsert addr entry s.uksm_pages) :=
        mem_alKeys_alInsert.mpr (Or.inl rfl)
      have hins : alInsert addr entry s.uksm_pages = (addr, entry) :: s.uksm_pages := by
        rw [alInsert, alErase_of_not_mem haddr_nu]
      have hstep : ∃ u' : Uksm, u.add s.pid addr entry gw = .ok u' ∧
          (∀ crc vecq, alLookup crc u'.pages = some vecq → vecq ≠ [] ∧
            ∀ k ∈ vecq, k ≠ [] ∧ ∀ q ∈ k, q.pid = s.pid →
              q.addr ∈ alKeys (alInsert addr entry s.uksm_pages)) ∧
          (∀ crc', alLookup crc' (Uksm.remove u' s.pid addr entry.crc).pages =
            alLookup crc' u.pages) := by
        cases hc : alLookup entry.crc u.pages with
        | none =>
          refine ⟨⟨alInsert entry.crc [[⟨s.pid, addr⟩]] u.pages⟩, by simp [Uksm.add, hc],
            ?_, ?_⟩
          · intro crc vecq hv
            have hv2 : alLookup crc (alInsert entry.crc [[⟨s.pid, addr⟩]] u.pages) =
                some vecq := hv
            rw [alLookup_alInsert_eq] at hv2
            by_cases hcc : crc = entry.crc
            · rw [if_pos hcc] at hv2
              injection hv2 with hv3
              subst hv3
              refine ⟨by simp, ?_⟩
              intro k hkm
              rcases List.mem_singleton.mp hkm with rfl
              refine ⟨by simp, ?_⟩
              intro q hq _
              rcases List.mem_singleton.mp hq with rfl
              exact haddr_in
            · rw [if_neg hcc] at hv2
              obtain ⟨h1, h2⟩ := hinv crc vecq hv2
              exact ⟨h1, fun k hkm => ⟨(h2 k hkm).1,
                fun q hq hp => hsup _ ((h2 k hkm).2 q hq hp)⟩⟩
          · intro crc'
            have hl : alLookup entry.crc
                (⟨alInsert entry.crc [[⟨s.pid, addr⟩]] u.pages⟩ : Uksm).pages =
                some (([] : List (List PidAddr)) ++ [[⟨s.pid, addr⟩]]) :=
              alLookup_alInsert_self _ _ _
            rw [remove_shape2 s.pid addr entry.crc [] _ hl
              (by intro k hkm; cases hkm) (by intro k hkm; cases hkm) crc']
            by_cases hcc : crc' = entry.crc
            · rw [if_pos hcc, if_pos (show (List.isEmpty ([] : List (List PidAddr))) = true from rfl), hcc, hc]
            · rw [if_neg hcc]
              show alLookup crc' (alInsert entry.crc [[⟨s.pid, addr⟩]] u.pages) = _
              rw [alLookup_alInsert_eq, if_neg hcc]
        | some vec =>
          obtain ⟨hvne, hcls⟩ := hinv entry.crc vec hc
          have hnh : ∀ k ∈ vec, ∀ q ∈ k, ¬(q.pid = s.pid ∧ q.addr = addr) := by
            intro k hkm q hq hcon
            have := (hcls k hkm).2 q hq hcon.1
            rw [hcon.2] at this
            exact haddr_nu this
          obtain ⟨vec', havec, hshape⟩ := addToVec_total_shape gw ⟨s.pid, addr⟩ hgw vec
          have hmem' : ∀ k' ∈ vec', (k' ≠ []) ∧ ∀ q ∈ k',
              (∃ k₀ ∈ vec, q ∈ k₀) ∨ q = ⟨s.pid, addr⟩ := by
            rcases hshape with ⟨pre, k, post, hveq, hkne, hveq2⟩ | hveq2
            · subst hveq2
              intro k' hk'
              rcases List.mem_append.mp hk' with hk1 | hk2
              · have hkin : k' ∈ vec := by
                  rw [hveq]
                  exact List.mem_append.mpr (Or.inl hk1)
                exact ⟨(hcls k' hkin).1, fun q hq => Or.inl ⟨k', hkin, hq⟩⟩
              · rcases List.mem_cons.mp hk2 with rfl | hk3
                · refine ⟨by simp, ?_⟩
                  intro q hq
                  rcases List.mem_append.mp hq with hq1 | hq2
                  · have hkin : k ∈ vec := by
                      rw [hveq]
                      exact List.mem_append.mpr (Or.inr (List.mem_cons_self k post))
                    exact Or.inl ⟨k, hkin, hq1⟩
                  · rcases List.mem_singleton.mp hq2 with rfl
                    exact Or.inr rfl
                · have hkin : k' ∈ vec := by
                    rw [hveq]
                    exact List.mem_append.mpr (Or.inr (List.mem_cons.mpr (Or.inr hk3)))
                  exact ⟨(hcls k' hkin).1, fun q hq => Or.inl ⟨k', hkin, hq⟩⟩
            · subst hveq2
              intro k' hk'
              rcases List.mem_append.mp hk' with hk1 | hk2
              · exact ⟨(hcls k' hk1).1, fun q hq => Or.inl ⟨k', hk1, hq⟩⟩
              · rcases List.mem_singleton.mp hk2 with rfl
                refine ⟨by simp, ?_⟩
                intro q hq
                rcases List.mem_singleton.mp hq with rfl
                exact Or.inr rfl
          refine ⟨⟨alInsert entry.crc vec' u.pages⟩, by simp [Uksm.add, hc, havec],
            ?_, ?_⟩
          · intro crc vecq hv
            have hv2 : alLookup crc (alInsert entry.crc vec' u.pages) = some vecq := hv
            rw [alLookup_alInsert_eq] at hv2
            by_cases hcc : crc = entry.crc
            · rw [if_pos hcc] at hv2
              injection hv2 with hv3
              subst hv3
              constructor
              · rcases hshape with ⟨pre, k, post, hveq, hkne, hveq2⟩ | hveq2 <;>
                  subst hveq2 <;> simp
              · intro k hkm
                obtain ⟨hkne2, hq⟩ := hmem' k hkm
                refine ⟨hkne2, ?_⟩
                intro q hqk hqp
                rcases hq q hqk with ⟨k₀, hk₀, hqk₀⟩ | rfl
                · exact hsup _ ((hcls k₀ hk₀).2 q hqk₀ hqp)
                · exact haddr_in
            · rw [if_neg hcc] at hv2
              obtain ⟨h1, h2⟩ := hinv crc vecq hv2
              exact ⟨h1, fun k hkm => ⟨(h2 k hkm).1,
                fun q hq hp => hsup _ ((h2 k hkm).2 q hq hp)⟩⟩
          · rcases hshape with ⟨pre, k, post, hveq, hkne, hveq2⟩ | hveq2
            · subst hveq2
              intro crc'
              have hl : alLookup entry.crc
                  (⟨alInsert entry.crc (pre ++ (k ++ [⟨s.pid, addr⟩]) :: post) u.pages⟩ : Uksm).pages =
                  some (pre ++ (k ++ [⟨s.pid, addr⟩]) :: post) :=
                alLookup_alInsert_self _ _ _
              have hpre2 : ∀ k' ∈ pre, ∀ q ∈ k', ¬(q.pid = s.pid ∧ q.addr = addr) :=
                fun k' hk' => hnh k' (by rw [hveq]; exact List.mem_append.mpr (Or.inl hk'))
              have hk2 : ∀ q ∈ k, ¬(q.pid = s.pid ∧ q.addr = addr) :=
                hnh k (by rw [hveq]; exact List.mem_append.mpr (Or.inr (List.mem_cons_self k post)))
              rw [remove_shape1 s.pid addr entry.crc pre post k _ hl hpre2 hk2 hkne crc']
              by_cases hcc : crc' = entry.crc
              · rw [if_pos hcc, hcc, hc, hveq]
              · rw [if_neg hcc]
                show alLookup crc' (alInsert entry.crc (pre ++ (k ++ [⟨s.pid, addr⟩]) :: post) u.pages) = _
                rw [alLookup_alInsert_eq, if_neg hcc]
            · subst hveq2
              intro crc'
              have hl : alLookup entry.crc
                  (⟨alInsert entry.crc (vec ++ [[⟨s.pid, addr⟩]]) u.pages⟩ : Uksm).pages =
                  some (vec ++ [[⟨s.pid, addr⟩]]) :=
                alLookup_alInsert_self _ _ _
              rw [remove_shape2 s.pid addr entry.crc vec _ hl hnh
                (fun k' hk' => (hcls k' hk').1) crc']
              by_cases hcc : crc' = entry.crc
              · have hve : vec.isEmpty = false := by
                  cases hcase : vec
                  · exact absurd hcase hvne
                  · rfl
                rw [if_pos hcc, hve, if_neg (by simp), hcc, hc]
              · rw [if_neg hcc]
                show alLookup crc' (alInsert entry.crc (vec ++ [[⟨s.pid, addr⟩]]) u.pages) = _
                rw [alLookup_alInsert_eq, if_neg hcc]
      obtain ⟨u', hadd, hinv', hrm⟩ := hstep
      obtain ⟨s₁, u₁, moved', s₂', u₂', hm', hmv', hun', hpid', hmaps', hnew', huk',
        hold', hidx'⟩ :=
        ih { s with old_pages := alErase addr s.old_pages,
                    uksm_pages := alInsert addr entry s.uksm_pages } u' hd' hinv'
      have hpid2 : s₂'.pid = s.pid := hpid'
      have huk2 : s₂'.uksm_pages = alInsert addr entry s.uksm_pages := huk'
      have hold2 : ∀ x, alLookup x s₂'.old_pages = alLookup x (alErase addr s.old_pages) :=
        hold'
      refine ⟨s₁, u₁, moved' ++ [(addr, entry)],
        { s₂' with uksm_pages := alErase addr s₂'.uksm_pages,
                   old_pages := alInsert addr entry s₂'.old_pages },
        Uksm.remove u₂' s.pid addr entry.crc, ?_, ?_, ?_, hpid2, hmaps', hnew', ?_, ?_, ?_⟩
      · simp only [mergeLoop, ho, hadd]
        exact hm'
      · have hmv2 : s₁.uksm_pages = moved' ++ ((addr, entry) :: s.uksm_pages) :=
          hmv'.trans (congrArg (fun l => moved' ++ l) hins)
        rw [hmv2]
        simp
      · have hkm : alKeys (moved' ++ [(addr, entry)]) = alKeys moved' ++ [addr] := by
          simp [alKeys]
        rw [hkm, unmergeLoop_append ugw (alKeys moved') s₁ u₁ s₂' u₂' hun' [addr]]
        have hlook : alLookup addr s₂'.uksm_pages = some entry := by
          rw [huk2]
          exact alLookup_alInsert_self addr entry s.uksm_pages
        simp only [unmergeLoop, hlook, Uksm.unmerge, hugw]
        rw [hpid2]
      · show alErase addr s₂'.uksm_pages = s.uksm_pages
        rw [huk2, alErase_alInsert, alErase_of_not_mem haddr_nu]
      · intro x
        show alLookup x (alInsert addr entry s₂'.old_pages) = alLookup x s.old_pages
        rw [alLookup_alInsert_eq]
        by_cases hx : x = addr
        · rw [if_pos hx, hx, ho]
        · rw [if_neg hx, hold2 x, alLookup_alErase_eq, if_neg hx]
      · intro crc'
        calc alLookup crc' (Uksm.remove u₂' s.pid addr entry.crc).pages
            = alLookup crc' (Uksm.remove u' s.pid addr entry.crc).pages :=
              remove_lookup_ext u₂' u' s.pid addr entry.crc hidx' crc'
          _ = alLookup crc' u.pages := hrm crc'

/-- C6 amended: starting from any state in which address a of pid p is in
bucket old with crc c and the merged bucket of p is empty — with the merge
index in a state satisfying the spec's own index invariants, which given
the empty merged bucket mean no empty class, no crc with zero classes, and
no pair of pid p anywhere in the index — running a merge pass followed by
an unmerge pass (with the gateway succeeding on both) leaves a in bucket
old with crc c, restores the whole old bucket, and leaves the merge index
unchanged: every class the merge pass created or extended is dismantled or
shrunk back by the unmerge pass, and the index outside them was never
touched. The old bucket may hold any number of entries, with shared crcs
or crcs that already have classes in the index. -/
theorem c6_roundtrip_amended (s : Info) (u : Uksm) (a c : Nat)
    (gw : GwM) (ugw : UgwM)
    (hmerged : s.uksm_pages = [])
    (hold : alLookup a s.old_pages = some ⟨c⟩)
    (hinv : ∀ crc vec, alLookup crc u.pages = some vec → vec ≠ [] ∧
      ∀ k ∈ vec, k ≠ [] ∧ ∀ q ∈ k, q.pid ≠ s.pid)
    (hgw : ∀ x y, ∃ b, gw x y = .ok b) (hugw : ∀ x, ugw x = .ok ()) :
    ∃ s₁ u₁ s₂ u₂,
      Info.merge s u gw = (s₁, u₁, true) ∧
      Info.unmerge s₁ u₁ ugw = (s₂, u₂, true) ∧
      alLookup a s₂.old_pages = some ⟨c⟩ ∧
      (∀ x, alLookup x s₂.old_pages = alLookup x s.old_pages) ∧
      s₂.uksm_pages = [] ∧ s₂.new_pages = s.new_pages ∧ s₂.pid = s.pid ∧
      (∀ crc', alLookup crc' u₂.pages = alLookup crc' u.pages) := by
  have hd : ∀ x, x ∈ alKeys s.old_pages → x ∉ alKeys s.uksm_pages := by
    intro x _ hx
    rw [hmerged] at hx
    simp [alKeys] at hx
  have hinv2 : ∀ crc vec, alLookup crc u.pages = some vec → vec ≠ [] ∧
      ∀ k ∈ vec, k ≠ [] ∧ ∀ q ∈ k, q.pid = s.pid → q.addr ∈ alKeys s.uksm_pages := by
    intro crc vec hv
    obtain ⟨h1, h2⟩ := hinv crc vec hv
    exact ⟨h1, fun k hk => ⟨(h2 k hk).1,
      fun q hq hp => absurd hp ((h2 k hk).2 q hq)⟩⟩
  obtain ⟨s₁, u₁, moved, s₂, u₂, hm, hmv, hun, hpid, hmaps, hnew, huk, holdx, hidx⟩ :=
    mergeUnmerge_loop gw ugw hgw hugw (alKeys s.old_pages) s u hd hinv2
  refine ⟨s₁, u₁, s₂, u₂, hm, ?_, ?_, holdx, ?_, hnew, hpid, hidx⟩
  · show unmergeLoop ugw s₁ u₁ (alKeys s₁.uksm_pages) = (s₂, u₂, true)
    have hkeq : alKeys s₁.uksm_pages = alKeys moved := by
      rw [hmv, hmerged, List.append_nil]
    rw [hkeq]
    exact hun
  · rw [holdx a]
    exact hold
  · rw [huk, hmerged]

/-- Concrete instance of the amended C6: three old entries (two sharing
crc 7), a pre-existing class under crc 7 belonging to another pid, an
unrelated crc-9 class, and a non-empty new bucket; the round trip restores
everything. -/
theorem c6_roundtrip_amended_witness :
    ∃ s₁ u₁ s₂ u₂,
      Info.merge ⟨1, [], [(100, ⟨5⟩)], [(8, ⟨7⟩), (12, ⟨7⟩), (16, ⟨3⟩)], []⟩
          ⟨[(7, [[⟨2, 8⟩]]), (9, [[⟨2, 40⟩]])]⟩ gwTrue = (s₁, u₁, true) ∧
      Info.unmerge s₁ u₁ ugwOk = (s₂, u₂, true) ∧
      alLookup 8 s₂.old_pages = some ⟨7⟩ ∧
      (∀ x, alLookup x s₂.old_pages =
        alLookup x [(8, (⟨7⟩ : PageEntry)), (12, ⟨7⟩), (16, ⟨3⟩)]) ∧
      s₂.uksm_pages = [] ∧ s₂.new_pages = [(100, ⟨5⟩)] ∧ s₂.pid = 1 ∧
      (∀ crc', alLookup crc' u₂.pages =
        alLookup crc' [(7, [[⟨2, 8⟩]]), (9, [[⟨2, 40⟩]])]) :=
  c6_roundtrip_amended ⟨1, [], [(100, ⟨5⟩)], [(8, ⟨7⟩), (12, ⟨7⟩), (16, ⟨3⟩)], []⟩
    ⟨[(7, [[⟨2, 8⟩]]), (9, [[⟨2, 40⟩]])]⟩ 8 7 gwTrue ugwOk rfl rfl
    (by
      intro crc vec h
      have hmem := alLookup_isSome_mem h
      simp only [alKeys, List.map_cons, List.map_nil, List.mem_cons,
        List.not_mem_nil, or_false] at hmem
      rcases hmem with rfl | rfl
      · have hv : vec = [[⟨2, 8⟩]] :=
          Option.some.inj (h.symm.trans (rfl :
            alLookup 7 (⟨[(7, [[⟨2, 8⟩]]), (9, [[⟨2, 40⟩]])]⟩ : Uksm).pages =
              some [[⟨2, 8⟩]]))
        subst hv
        exact ⟨by decide, by decide⟩
      · have hv : vec = [[⟨2, 40⟩]] :=
          Option.some.inj (h.symm.trans (rfl :
            alLookup 9 (⟨[(7, [[⟨2, 8⟩]]), (9, [[⟨2, 40⟩]])]⟩ : Uksm).pages =
              some [[⟨2, 40⟩]]))
        subst hv
        exact ⟨by decide, by decide⟩)
    (fun _ _ => ⟨true, rfl⟩) (fun _ => rfl)
